import Mathlib

/-!
Verification development for the PSF-based spectral profile extractor
(`jwst/extract_1d/psf_profile.py`).

Modeling conventions:
* Floating-point scalars are modeled as exact rationals (`ℚ`); where the
  distinction between finite values, NaN and infinities is itself the point
  (the optimizer objective and the optimizer initial guess), values are
  modeled by the inductive type `V` below capturing the IEEE special values.
* 2-D arrays are total functions `ℤ → ℤ → ℚ` with shapes carried separately;
  the meaningful region of an array of shape `(h, w)` is `[0, h) × [0, w)`.
* External collaborators (the optimal-extraction routine `extract1d`, the
  scipy minimizer, the WCS transforms) are oracle parameters.
-/

/-- Dispersion direction, predominantly horizontal (module constant 1). -/
def HORIZONTAL : ℤ := 1

/-- Dispersion direction, predominantly vertical (module constant 2). -/
def VERTICAL : ℤ := 2

/-- A 2-D float array, modeled as a total function on integer indices. -/
abbrev Arr2 := ℤ → ℤ → ℚ

/-- Pixel lookup with the default boundary mode of
`scipy.ndimage.map_coordinates` (`mode="constant"`, `cval=0.0`):
indices outside the array shape read the fill value 0. -/
def getPix (d : Arr2) (ny nx : ℕ) (i j : ℤ) : ℚ :=
  if 0 ≤ i ∧ i < (ny : ℤ) ∧ 0 ≤ j ∧ j < (nx : ℤ) then d i j else 0

/-- Order-1 (bilinear) resampling of `scipy.ndimage.map_coordinates` at a
single fractional coordinate `(y, x)`. -/
def bilinear (d : Arr2) (ny nx : ℕ) (y x : ℚ) : ℚ :=
  (1 - (y - ⌊y⌋)) * (1 - (x - ⌊x⌋)) * getPix d ny nx ⌊y⌋ ⌊x⌋
    + (1 - (y - ⌊y⌋)) * (x - ⌊x⌋) * getPix d ny nx ⌊y⌋ (⌊x⌋ + 1)
    + (y - ⌊y⌋) * (1 - (x - ⌊x⌋)) * getPix d ny nx (⌊y⌋ + 1) ⌊x⌋
    + (y - ⌊y⌋) * (x - ⌊x⌋) * getPix d ny nx (⌊y⌋ + 1) (⌊x⌋ + 1)

/-- Translation of `_normalize_profile(profile, dispaxis)`: normalize a
spatial profile of shape `(h, w)` along the cross-dispersion axis.  For the
horizontal dispersion axis the sum runs over rows of each column; otherwise
over columns of each row.  Columns (rows) with zero sum are set to zero.  In
exact rational arithmetic the final non-finite cleanup of the source
(`profile[~np.isfinite(profile)] = 0.0`) is a no-op and is omitted. -/
def normalize_profile (p : Arr2) (h w : ℕ) (dispaxis : ℤ) : Arr2 :=
  if dispaxis = HORIZONTAL then
    fun i j =>
      if (∑ k ∈ Finset.range h, p (k : ℤ) j) = 0 then 0
      else p i j / (∑ k ∈ Finset.range h, p (k : ℤ) j)
  else
    fun i j =>
      if (∑ k ∈ Finset.range w, p i (k : ℤ)) = 0 then 0
      else p i j / (∑ k ∈ Finset.range w, p i (k : ℤ))

/-- The cross-dispersion coordinate array built by `_make_cutout_profile`:
for horizontal dispersion `yidx * psf_subpix + psf_shift + extra_shift`
(with the per-column shift broadcast along rows), otherwise `yidx`
unchanged. -/
def cutout_ycoord (yidx : Arr2) (subpix : ℚ) (psf_shift : ℤ → ℚ)
    (dispaxis : ℤ) (es : ℚ) : Arr2 :=
  if dispaxis = HORIZONTAL then
    fun i j => yidx i j * subpix + psf_shift j + es
  else yidx

/-- The dispersion coordinate array built by `_make_cutout_profile`:
unchanged for horizontal dispersion, shifted per-row otherwise. -/
def cutout_xcoord (xidx : Arr2) (subpix : ℚ) (psf_shift : ℤ → ℚ)
    (dispaxis : ℤ) (es : ℚ) : Arr2 :=
  if dispaxis = HORIZONTAL then xidx
  else fun i j => xidx i j * subpix + psf_shift i + es

/-- Translation of `_make_cutout_profile`: resample the oversampled PSF onto
the cutout pixel grid at the shifted trace location, normalize along the
cross-dispersion axis, and, when `nod` is present, add a negated profile at
an additional cross-dispersion shift of `subpix * nod`.  The leading
underscore of the source name is dropped. -/
def make_cutout_profile (xidx yidx : Arr2) (subpix : ℚ) (psf_shift : ℤ → ℚ)
    (psf_data : Arr2) (pny pnx ch cw : ℕ) (dispaxis : ℤ)
    (es : ℚ) (nod : Option ℚ) : List Arr2 :=
  match nod with
  | none =>
      [normalize_profile (fun i j => bilinear psf_data pny pnx
          (cutout_ycoord yidx subpix psf_shift dispaxis es i j)
          (cutout_xcoord xidx subpix psf_shift dispaxis es i j)) ch cw dispaxis]
  | some d =>
      [normalize_profile (fun i j => bilinear psf_data pny pnx
          (cutout_ycoord yidx subpix psf_shift dispaxis es i j)
          (cutout_xcoord xidx subpix psf_shift dispaxis es i j)) ch cw dispaxis,
       fun i j => -(normalize_profile (fun i j => bilinear psf_data pny pnx
          ((if dispaxis = HORIZONTAL then
              (fun a b => cutout_ycoord yidx subpix psf_shift dispaxis es a b + subpix * d)
            else cutout_ycoord yidx subpix psf_shift dispaxis es) i j)
          ((if dispaxis = HORIZONTAL then cutout_xcoord xidx subpix psf_shift dispaxis es
            else (fun a b => cutout_xcoord xidx subpix psf_shift dispaxis es a b + subpix * d)) i j))
          ch cw dispaxis i j)]

/-- The pixel index grid `_x` from `np.mgrid` over the cutout shape. -/
def xgrid : Arr2 := fun _ j => (j : ℚ)

/-- The pixel index grid `_y` from `np.mgrid` over the cutout shape. -/
def ygrid : Arr2 := fun i _ => (i : ℚ)

/-- Bilinear resampling respects equality of the two coordinates. -/
theorem bilinear_congr (d : Arr2) (ny nx : ℕ) (y1 y2 x1 x2 : ℚ)
    (hy : y1 = y2) (hx : x1 = x2) :
    bilinear d ny nx y1 x1 = bilinear d ny nx y2 x2 := by rw [hy, hx]

/-- Boundary-aware pixel lookup of a non-negative array is non-negative. -/
theorem getPix_nonneg (d : Arr2) (ny nx : ℕ) (i j : ℤ)
    (hd : ∀ a b, 0 ≤ d a b) : 0 ≤ getPix d ny nx i j := by
  unfold getPix
  split
  · exact hd i j
  · exact le_refl 0

/-- Bilinear resampling of a non-negative array is non-negative: the four
interpolation weights all lie in `[0, 1]`. -/
theorem bilinear_nonneg (d : Arr2) (ny nx : ℕ) (y x : ℚ)
    (hd : ∀ a b, 0 ≤ d a b) : 0 ≤ bilinear d ny nx y x := by
  have h1 : (0 : ℚ) ≤ y - ⌊y⌋ := sub_nonneg.mpr (Int.floor_le y)
  have h2 : (0 : ℚ) ≤ 1 - (y - ⌊y⌋) := by
    have := Int.lt_floor_add_one y
    linarith
  have h3 : (0 : ℚ) ≤ x - ⌊x⌋ := sub_nonneg.mpr (Int.floor_le x)
  have h4 : (0 : ℚ) ≤ 1 - (x - ⌊x⌋) := by
    have := Int.lt_floor_add_one x
    linarith
  unfold bilinear
  have g1 := getPix_nonneg d ny nx ⌊y⌋ ⌊x⌋ hd
  have g2 := getPix_nonneg d ny nx ⌊y⌋ (⌊x⌋ + 1) hd
  have g3 := getPix_nonneg d ny nx (⌊y⌋ + 1) ⌊x⌋ hd
  have g4 := getPix_nonneg d ny nx (⌊y⌋ + 1) (⌊x⌋ + 1) hd
  have t1 := mul_nonneg (mul_nonneg h2 h4) g1
  have t2 := mul_nonneg (mul_nonneg h2 h3) g2
  have t3 := mul_nonneg (mul_nonneg h1 h4) g3
  have t4 := mul_nonneg (mul_nonneg h1 h3) g4
  linarith

/-- Normalization preserves non-negativity of a profile. -/
theorem normalize_profile_nonneg (p : Arr2) (h w : ℕ) (dispaxis : ℤ)
    (hp : ∀ i j, 0 ≤ p i j) : ∀ i j, 0 ≤ normalize_profile p h w dispaxis i j := by
  intro i j
  by_cases hax : dispaxis = HORIZONTAL
  · simp only [normalize_profile, if_pos hax]
    split
    · exact le_refl 0
    · exact div_nonneg (hp i j) (Finset.sum_nonneg fun k _ => hp (k : ℤ) j)
  · simp only [normalize_profile, if_neg hax]
    split
    · exact le_refl 0
    · exact div_nonneg (hp i j) (Finset.sum_nonneg fun k _ => hp i (k : ℤ))

/-- The sum along the cross-dispersion axis of a normalized column is the
original sum divided by itself. -/
theorem normalize_profile_col_sum (p : Arr2) (h w : ℕ) (j : ℤ) :
    (∑ i ∈ Finset.range h, normalize_profile p h w HORIZONTAL (i : ℤ) j)
      = if (∑ i ∈ Finset.range h, p (i : ℤ) j) = 0 then 0 else 1 := by
  by_cases hs : (∑ i ∈ Finset.range h, p (i : ℤ) j) = 0
  · simp [normalize_profile, hs]
  · simp only [normalize_profile, if_pos rfl, if_true, eq_self_iff_true, if_neg hs]
    rw [← Finset.sum_div, div_self hs]

/-- The sum along the cross-dispersion axis of a normalized row is the
original sum divided by itself (vertical dispersion case). -/
theorem normalize_profile_row_sum (p : Arr2) (h w : ℕ) (i : ℤ) :
    (∑ j ∈ Finset.range w, normalize_profile p h w VERTICAL i (j : ℤ))
      = if (∑ j ∈ Finset.range w, p i (j : ℤ)) = 0 then 0 else 1 := by
  have hv : VERTICAL ≠ HORIZONTAL := by decide
  by_cases hs : (∑ j ∈ Finset.range w, p i (j : ℤ)) = 0
  · simp [normalize_profile, hs, hv]
  · simp only [normalize_profile, if_neg hv, if_neg hs]
    rw [← Finset.sum_div, div_self hs]

/-- C1: after `_normalize_profile`, for either dispersion axis, the sum of
profile weights across the cross-dispersion axis at each dispersion-axis
index is exactly 1 when the pre-normalization sum there is nonzero and
exactly 0 when it is zero — never a partial value. -/
theorem c1_normalization_unity (p : Arr2) (h w : ℕ) :
    (∀ j : ℤ,
      (∑ i ∈ Finset.range h, normalize_profile p h w HORIZONTAL (i : ℤ) j)
        = if (∑ i ∈ Finset.range h, p (i : ℤ) j) = 0 then 0 else 1)
    ∧ (∀ i : ℤ,
      (∑ j ∈ Finset.range w, normalize_profile p h w VERTICAL i (j : ℤ))
        = if (∑ j ∈ Finset.range w, p i (j : ℤ)) = 0 then 0 else 1) :=
  ⟨fun j => normalize_profile_col_sum p h w j,
   fun i => normalize_profile_row_sum p h w i⟩

/-- C2: with a non-none nod offset, `_make_cutout_profile` returns the
normalized primary profile together with the exact negation of the
normalized positive-trace profile that a call with the extra shift enlarged
by `subpix * d` (the same shift magnitude, applied at the nod location)
would produce; and whenever the PSF reference data is non-negative, the
primary profile is non-negative. -/
theorem c2_negative_trace (xidx yidx : Arr2) (subpix : ℚ) (psf_shift : ℤ → ℚ)
    (psf_data : Arr2) (pny pnx ch cw : ℕ) (dispaxis : ℤ) (es d : ℚ) :
    make_cutout_profile xidx yidx subpix psf_shift psf_data pny pnx ch cw dispaxis es (some d)
      = [(make_cutout_profile xidx yidx subpix psf_shift psf_data pny pnx ch cw
            dispaxis es none).headI,
         fun i j => -((make_cutout_profile xidx yidx subpix psf_shift psf_data pny pnx ch cw
            dispaxis (es + subpix * d) none).headI i j)]
    ∧ ((∀ i j, 0 ≤ psf_data i j) → ∀ i j,
        0 ≤ (make_cutout_profile xidx yidx subpix psf_shift psf_data pny pnx ch cw
            dispaxis es (some d)).headI i j) := by
  constructor
  · have hco : (fun i j => bilinear psf_data pny pnx
        ((if dispaxis = HORIZONTAL then
            (fun a b => cutout_ycoord yidx subpix psf_shift dispaxis es a b + subpix * d)
          else cutout_ycoord yidx subpix psf_shift dispaxis es) i j)
        ((if dispaxis = HORIZONTAL then cutout_xcoord xidx subpix psf_shift dispaxis es
          else (fun a b => cutout_xcoord xidx subpix psf_shift dispaxis es a b + subpix * d)) i j))
        = (fun i j => bilinear psf_data pny pnx
            (cutout_ycoord yidx subpix psf_shift dispaxis (es + subpix * d) i j)
            (cutout_xcoord xidx subpix psf_shift dispaxis (es + subpix * d) i j)) := by
      funext i j
      by_cases hd : dispaxis = HORIZONTAL
      · simp only [cutout_ycoord, cutout_xcoord, if_pos hd]
        exact bilinear_congr _ _ _ _ _ _ _ (by ring) rfl
      · simp only [cutout_ycoord, cutout_xcoord, if_neg hd]
        exact bilinear_congr _ _ _ _ _ _ _ rfl (by ring)
    simp only [make_cutout_profile, List.headI]
    simp only [hco]
  · intro hpd i j
    simp only [make_cutout_profile, List.headI]
    exact normalize_profile_nonneg _ ch cw dispaxis
      (fun a b => bilinear_nonneg psf_data pny pnx _ _ hpd) i j

/-- A PSF array with a negative sample, witnessing that the source imposes
no sign constraint on the reference data. -/
def negPsf : Arr2 := fun i _ => if i = 0 then -1 else 2

/-- Bilinear resampling at exact integer coordinates reads the pixel. -/
theorem bilinear_int (d : Arr2) (ny nx : ℕ) (a b : ℤ) :
    bilinear d ny nx (a : ℚ) (b : ℚ) = getPix d ny nx a b := by
  unfold bilinear
  rw [Int.floor_intCast, Int.floor_intCast]
  simp [sub_self]

/-- C2 counterexample: as universally stated, the non-negativity part of the
claim is false — with PSF reference data containing a negative sample, the
primary profile synthesized by `_make_cutout_profile` has a negative entry
(here the pixel (0,0) of a 2x1 cutout has normalized weight -1). -/
theorem c2_counterexample :
    ¬ (0 ≤ (make_cutout_profile xgrid ygrid 1 (fun _ => 0) negPsf 2 1 2 1
        HORIZONTAL 0 (some 0)).headI 0 0) := by
  have hraw : (fun i j => bilinear negPsf 2 1
        (cutout_ycoord ygrid 1 (fun _ => 0) HORIZONTAL 0 i j)
        (cutout_xcoord xgrid 1 (fun _ => 0) HORIZONTAL 0 i j))
      = fun i j => getPix negPsf 2 1 i j := by
    funext i j
    have h1 : cutout_ycoord ygrid 1 (fun _ => 0) HORIZONTAL 0 i j = (i : ℚ) := by
      simp [cutout_ycoord, ygrid]
    have h2 : cutout_xcoord xgrid 1 (fun _ => 0) HORIZONTAL 0 i j = (j : ℚ) := by
      simp [cutout_xcoord, xgrid]
    rw [h1, h2, bilinear_int]
  have hval : (make_cutout_profile xgrid ygrid 1 (fun _ => 0) negPsf 2 1 2 1
      HORIZONTAL 0 (some 0)).headI 0 0 = -1 := by
    simp only [make_cutout_profile, List.headI]
    rw [hraw]
    have hsum : (∑ k ∈ Finset.range 2, getPix negPsf 2 1 (k : ℤ) 0) = 1 := by
      rw [Finset.sum_range_succ, Finset.sum_range_succ, Finset.sum_range_zero]
      norm_num [getPix, negPsf]
    simp only [normalize_profile, if_pos rfl, if_true, eq_self_iff_true, hsum]
    norm_num [getPix, negPsf]
  rw [hval]
  norm_num

/-- All-ones PSF array, a non-negative reference for the C2 witness. -/
def onesPsf : Arr2 := fun _ _ => 1

/-- Witness for C2 at a concrete input: with non-negative PSF data the
primary profile entry (0,0) of a 2x2 cutout is non-negative. -/
theorem c2_witness :
    0 ≤ (make_cutout_profile xgrid ygrid 1 (fun _ => 0) onesPsf 2 2 2 2
        HORIZONTAL 0 (some 1)).headI 0 0 :=
  (c2_negative_trace xgrid ygrid 1 (fun _ => 0) onesPsf 2 2 2 2 HORIZONTAL 0 1).2
    (fun _ _ => by norm_num [onesPsf]) 0 0

/-!
Cubic-spline trace locator.  The source fits `scipy.interpolate.CubicSpline`
through the (wavelength, trace position) reference table and evaluates it at
`middle_wl`; the per-PSF-column shifts then come from
`scipy.interpolate.interp1d(..., fill_value="extrapolate")`, i.e. piecewise
linear interpolation with edge-segment extrapolation.  The specification
describes the fit as natural cubic spline semantics (twice continuously
differentiable interpolant, boundary condition not-a-knot or natural); the
model below implements the classical second-derivative (moment) formulation
with natural boundary conditions, solved by the Thomas algorithm.
-/

/-- One polynomial segment of a piecewise interpolant: knot interval
`[xl, xr]`, end values `yl, yr`, and end second derivatives `ml, mr`. -/
structure Seg where
  xl : ℚ
  xr : ℚ
  yl : ℚ
  yr : ℚ
  ml : ℚ
  mr : ℚ

/-- Interior rows of the tridiagonal moment system for a cubic spline:
for each interior knot `x1` with neighbors `x0, x2`, the row
`(sub, diag, super, rhs)` is
`(h0, 2*(h0+h1), h1, 6*((y2-y1)/h1 - (y1-y0)/h0))`. -/
def interiorRows : List ℚ → List ℚ → List (ℚ × ℚ × ℚ × ℚ)
  | x0 :: x1 :: x2 :: xr, y0 :: y1 :: y2 :: yr =>
      (x1 - x0, 2 * ((x1 - x0) + (x2 - x1)), x2 - x1,
        6 * ((y2 - y1) / (x2 - x1) - (y1 - y0) / (x1 - x0)))
        :: interiorRows (x1 :: x2 :: xr) (y1 :: y2 :: yr)
  | _, _ => []

/-- Forward sweep of the Thomas algorithm: carries the previous modified
super-diagonal and right-hand side, producing the modified pairs. -/
def thomasFwd (cp dp : ℚ) : List (ℚ × ℚ × ℚ × ℚ) → List (ℚ × ℚ)
  | [] => []
  | (ai, bi, ci, di) :: rest =>
      (ci / (bi - ai * cp), (di - ai * dp) / (bi - ai * cp))
        :: thomasFwd (ci / (bi - ai * cp)) ((di - ai * dp) / (bi - ai * cp)) rest

/-- Back substitution of the Thomas algorithm. -/
def thomasBack : List (ℚ × ℚ) → List ℚ
  | [] => []
  | (cp, dp) :: rest => (dp - cp * (thomasBack rest).headD 0) :: thomasBack rest

/-- Solve a tridiagonal system given as rows `(sub, diag, super, rhs)`. -/
def thomasSolve (rows : List (ℚ × ℚ × ℚ × ℚ)) : List ℚ :=
  thomasBack (thomasFwd 0 0 rows)

/-- Knot second derivatives of the natural cubic spline: zero at both ends,
interior values from the tridiagonal moment system. -/
def moments (xs ys : List ℚ) : List ℚ :=
  0 :: (thomasSolve (interiorRows xs ys) ++ [0])

/-- Pair consecutive knots, values and moments into segments. -/
def buildSegs : List ℚ → List ℚ → List ℚ → List Seg
  | x0 :: x1 :: xr, y0 :: y1 :: yr, m0 :: m1 :: mr =>
      ⟨x0, x1, y0, y1, m0, m1⟩ :: buildSegs (x1 :: xr) (y1 :: yr) (m1 :: mr)
  | _, _, _ => []

/-- Evaluate one cubic segment in the classical moment form. -/
def segEval (s : Seg) (t : ℚ) : ℚ :=
  s.ml * (s.xr - t) ^ 3 / (6 * (s.xr - s.xl))
    + s.mr * (t - s.xl) ^ 3 / (6 * (s.xr - s.xl))
    + (s.yl - s.ml * (s.xr - s.xl) ^ 2 / 6) * (s.xr - t) / (s.xr - s.xl)
    + (s.yr - s.mr * (s.xr - s.xl) ^ 2 / 6) * (t - s.xl) / (s.xr - s.xl)

/-- Locate the segment containing `t`: the first segment whose right knot is
at least `t`, falling back to the last segment (this realizes extrapolation
with the edge segments, as both scipy interpolators do). -/
def findSeg : List Seg → ℚ → Option Seg
  | [], _ => none
  | [s], _ => some s
  | s :: s2 :: rest, t => if t ≤ s.xr then some s else findSeg (s2 :: rest) t

/-- Evaluate the natural cubic spline through `(xs, ys)` at `t`
(model of `scipy.interpolate.CubicSpline(wavetab, trace)(t)`). -/
def cubicSplineEval (xs ys : List ℚ) (t : ℚ) : ℚ :=
  match findSeg (buildSegs xs ys (moments xs ys)) t with
  | some s => segEval s t
  | none => 0

/-- Piecewise linear interpolation with edge-segment extrapolation
(model of `scipy.interpolate.interp1d(xs, ys, fill_value="extrapolate")`). -/
def linearInterp (xs ys : List ℚ) (t : ℚ) : ℚ :=
  match findSeg (buildSegs xs ys (List.replicate xs.length 0)) t with
  | some s => s.yl + (t - s.xl) * (s.yr - s.yl) / (s.xr - s.xl)
  | none => 0

/-- The rigid trace shift of the locator (`psf_profile`, lines 341-343):
`location` minus the spline fit through the trace table evaluated at
`middle_wl`. -/
def rigid_shift (wavetab trace : List ℚ) (middle_wl location : ℚ) : ℚ :=
  location - cubicSplineEval wavetab trace middle_wl

/-- The forward Thomas sweep of a system with zero right-hand side has zero
modified right-hand sides (regardless of the coefficients, since `0 / x = 0`
in `ℚ` for every `x`). -/
theorem thomasFwd_zero : ∀ (rows : List (ℚ × ℚ × ℚ × ℚ)) (cp : ℚ),
    (∀ r ∈ rows, r.2.2.2 = 0) → ∀ p ∈ thomasFwd cp 0 rows, p.2 = 0 := by
  intro rows
  induction rows with
  | nil => intro cp _ p hp; simp [thomasFwd] at hp
  | cons r rest ih =>
    intro cp hr p hp
    obtain ⟨ai, bi, ci, di⟩ := r
    have hd : di = 0 := hr (ai, bi, ci, di) (List.mem_cons_self _ _)
    subst hd
    simp only [thomasFwd, mul_zero, sub_zero, zero_div, List.mem_cons] at hp
    rcases hp with hp | hp
    · rw [hp]
    · exact ih (ci / (bi - ai * cp))
        (fun q hq => hr q (List.mem_cons_of_mem _ hq)) p hp

/-- Back substitution of an all-zero modified system yields all zeros. -/
theorem thomasBack_zero : ∀ l : List (ℚ × ℚ), (∀ p ∈ l, p.2 = 0) →
    ∀ x ∈ thomasBack l, x = 0 := by
  intro l
  induction l with
  | nil => intro _ x hx; simp [thomasBack] at hx
  | cons p rest ih =>
    intro hl x hx
    obtain ⟨cp, dp⟩ := p
    have hd : dp = 0 := hl (cp, dp) (List.mem_cons_self _ _)
    subst hd
    have hrest := ih (fun q hq => hl q (List.mem_cons_of_mem _ hq))
    simp only [thomasBack, List.mem_cons] at hx
    rcases hx with hx | hx
    · rw [hx]
      cases hh : thomasBack rest with
      | nil => simp [hh]
      | cons a tl =>
        have ha : a = 0 := hrest a (by rw [hh]; exact List.mem_cons_self _ _)
        simp [hh, ha]
    · exact hrest x hx

/-- Affine trace data yields a zero right-hand side in every interior row of
the moment system (the adjacent divided differences agree). -/
theorem interiorRows_affine (a b : ℚ) : ∀ xs : List ℚ, List.Chain' (· < ·) xs →
    ∀ r ∈ interiorRows xs (xs.map fun x => a * x + b), r.2.2.2 = 0 := by
  intro xs
  induction xs with
  | nil => intro _ r hr; simp [interiorRows] at hr
  | cons x0 xt ih =>
    intro hc r hr
    cases xt with
    | nil => simp [interiorRows] at hr
    | cons x1 xr =>
      cases xr with
      | nil => simp [interiorRows] at hr
      | cons x2 xrr =>
        rw [List.chain'_cons] at hc
        have hc2 := hc.2
        rw [List.chain'_cons] at hc2
        have h01 : x1 - x0 ≠ 0 := sub_ne_zero.mpr hc.1.ne'
        have h12 : x2 - x1 ≠ 0 := sub_ne_zero.mpr hc2.1.ne'
        simp only [List.map, interiorRows, List.mem_cons] at hr
        rcases hr with hr | hr
        · rw [hr]
          field_simp
          ring
        · exact ih hc.2 r hr

/-- For affine trace data all knot moments of the natural cubic spline
produced by the model are zero. -/
theorem moments_affine (a b : ℚ) (xs : List ℚ) (hc : List.Chain' (· < ·) xs) :
    ∀ m ∈ moments xs (xs.map fun x => a * x + b), m = 0 := by
  intro m hm
  simp only [moments, thomasSolve, List.mem_cons, List.mem_append,
    List.mem_singleton] at hm
  rcases hm with h | h | h | h
  · exact h
  · exact thomasBack_zero _ (thomasFwd_zero _ 0 (interiorRows_affine a b xs hc)) m h
  · exact h
  · simp at h

/-- Every segment built from affine data with zero moments joins two knots
on the line with zero end second derivatives. -/
theorem buildSegs_affine (a b : ℚ) : ∀ (xs ms : List ℚ),
    List.Chain' (· < ·) xs → (∀ m ∈ ms, m = 0) →
    ∀ s ∈ buildSegs xs (xs.map fun x => a * x + b) ms,
      ∃ p q : ℚ, p < q ∧ s = ⟨p, q, a * p + b, a * q + b, 0, 0⟩ := by
  intro xs
  induction xs with
  | nil => intro ms _ _ s hs; simp [buildSegs] at hs
  | cons x0 xt ih =>
    intro ms hc hm s hs
    cases xt with
    | nil => simp [buildSegs] at hs
    | cons x1 xr =>
      cases ms with
      | nil => simp [buildSegs] at hs
      | cons m0 mt =>
        cases mt with
        | nil => simp [buildSegs] at hs
        | cons m1 mr =>
          rw [List.chain'_cons] at hc
          have hm0 : m0 = 0 := hm m0 (List.mem_cons_self _ _)
          have hm1 : m1 = 0 := hm m1 (List.mem_cons_of_mem _ (List.mem_cons_self _ _))
          simp only [List.map, buildSegs, List.mem_cons] at hs
          rcases hs with hs | hs
          · exact ⟨x0, x1, hc.1, by rw [hs, hm0, hm1]⟩
          · exact ih (m1 :: mr) hc.2
              (fun m hmm => hm m (List.mem_cons_of_mem _ hmm)) s hs

/-- A zero-moment segment with affine end values evaluates to the line. -/
theorem segEval_affine (a b p q t : ℚ) (hpq : p ≠ q) :
    segEval ⟨p, q, a * p + b, a * q + b, 0, 0⟩ t = a * t + b := by
  have h : q - p ≠ 0 := sub_ne_zero.mpr (Ne.symm hpq)
  simp only [segEval]
  field_simp
  ring

/-- The segment the locator returns is a member of the segment list. -/
theorem findSeg_mem : ∀ (l : List Seg) (t : ℚ) (s : Seg),
    findSeg l t = some s → s ∈ l := by
  intro l
  induction l with
  | nil => intro t s h; simp [findSeg] at h
  | cons s0 rest ih =>
    intro t s h
    cases rest with
    | nil =>
      simp only [findSeg, Option.some.injEq] at h
      rw [← h]
      exact List.mem_cons_self _ _
    | cons s1 r2 =>
      simp only [findSeg] at h
      by_cases hle : t ≤ s0.xr
      · rw [if_pos hle, Option.some.injEq] at h
        rw [← h]
        exact List.mem_cons_self _ _
      · rw [if_neg hle] at h
        exact List.mem_cons_of_mem _ (ih t s h)

/-- On a nonempty segment list the locator always returns a segment. -/
theorem findSeg_exists : ∀ (l : List Seg) (t : ℚ), l ≠ [] →
    ∃ s, findSeg l t = some s := by
  intro l
  induction l with
  | nil => intro t h; exact absurd rfl h
  | cons s0 rest ih =>
    intro t _
    cases rest with
    | nil => exact ⟨s0, rfl⟩
    | cons s1 r2 =>
      by_cases hle : t ≤ s0.xr
      · exact ⟨s0, by simp [findSeg, hle]⟩
      · obtain ⟨s, hs⟩ := ih t (by simp)
        exact ⟨s, by simp [findSeg, hle, hs]⟩

/-- A list of the shape `0 :: (l ++ [0])` always has at least two cells. -/
theorem cons_append_singleton_two (l : List ℚ) :
    ∃ m1 mr, (0 : ℚ) :: (l ++ [0]) = 0 :: m1 :: mr := by
  cases l with
  | nil => exact ⟨0, [], rfl⟩
  | cons c cs => exact ⟨c, cs ++ [0], by simp⟩

/-- The spline model of a trace table affine in wavelength evaluates to the
affine function at every point. -/
theorem cubicSplineEval_affine (a b t : ℚ) (xs : List ℚ)
    (hc : List.Chain' (· < ·) xs) (hlen : 2 ≤ xs.length) :
    cubicSplineEval xs (xs.map fun x => a * x + b) t = a * t + b := by
  obtain ⟨x0, x1, xr, hxs⟩ : ∃ x0 x1 xr, xs = x0 :: x1 :: xr := by
    cases xs with
    | nil => simp at hlen
    | cons x0 xt =>
      cases xt with
      | nil => simp at hlen
      | cons x1 xr => exact ⟨x0, x1, xr, rfl⟩
  have hne : buildSegs xs (xs.map fun x => a * x + b)
      (moments xs (xs.map fun x => a * x + b)) ≠ [] := by
    subst hxs
    simp only [moments, List.map]
    obtain ⟨m1, mr, hm⟩ := cons_append_singleton_two
      (thomasSolve (interiorRows (x0 :: x1 :: xr)
        ((a * x0 + b) :: (a * x1 + b) :: List.map (fun x => a * x + b) xr)))
    rw [hm]
    simp [buildSegs]
  obtain ⟨s, hs⟩ := findSeg_exists _ t hne
  obtain ⟨p, q, hpq, hseg⟩ := buildSegs_affine a b xs
    (moments xs (xs.map fun x => a * x + b)) hc
    (moments_affine a b xs hc) s (findSeg_mem _ t s hs)
  unfold cubicSplineEval
  rw [hs, hseg]
  exact segEval_affine a b p q t hpq.ne

/-- The linear-interpolation model of a trace table affine in wavelength
evaluates to the affine function at every point. -/
theorem linearInterp_affine (a b t : ℚ) (xs : List ℚ)
    (hc : List.Chain' (· < ·) xs) (hlen : 2 ≤ xs.length) :
    linearInterp xs (xs.map fun x => a * x + b) t = a * t + b := by
  obtain ⟨x0, x1, xr, hxs⟩ : ∃ x0 x1 xr, xs = x0 :: x1 :: xr := by
    cases xs with
    | nil => simp at hlen
    | cons x0 xt =>
      cases xt with
      | nil => simp at hlen
      | cons x1 xr => exact ⟨x0, x1, xr, rfl⟩
  have hz : ∀ m ∈ List.replicate xs.length (0 : ℚ), m = 0 :=
    fun m hm => List.eq_of_mem_replicate hm
  have hne : buildSegs xs (xs.map fun x => a * x + b)
      (List.replicate xs.length 0) ≠ [] := by
    subst hxs
    simp [List.replicate, buildSegs]
  obtain ⟨s, hs⟩ := findSeg_exists _ t hne
  obtain ⟨p, q, hpq, hseg⟩ := buildSegs_affine a b xs
    (List.replicate xs.length 0) hc hz s (findSeg_mem _ t s hs)
  have h : q - p ≠ 0 := sub_ne_zero.mpr (Ne.symm hpq.ne)
  unfold linearInterp
  rw [hs, hseg]
  simp only
  field_simp
  ring

/-- C3: the trace locator computes the rigid shift as `location` minus the
cubic spline fit through the (wavelength, trace position) table evaluated at
`middle_wl`; for the linear table [(1,10),(2,20),(3,30)] with
`middle_wl = 2` and `location = 25` the computed rigid shift is exactly 5,
and in general for a trace table affine in wavelength the spline evaluation
agrees with direct linear interpolation at every evaluation point. -/
theorem c3_trace_locator :
    rigid_shift [1, 2, 3] [10, 20, 30] 2 25 = 5
    ∧ ∀ (xs : List ℚ) (a b t : ℚ), List.Chain' (· < ·) xs → 2 ≤ xs.length →
        cubicSplineEval xs (xs.map fun x => a * x + b) t = a * t + b
        ∧ cubicSplineEval xs (xs.map fun x => a * x + b) t
            = linearInterp xs (xs.map fun x => a * x + b) t := by
  constructor
  · have hmap : ([1, 2, 3] : List ℚ).map (fun x => 10 * x + 0) = [10, 20, 30] := by
      norm_num
    have h := cubicSplineEval_affine 10 0 2 [1, 2, 3]
      (by simp [List.chain'_cons]; norm_num) (by norm_num)
    rw [hmap] at h
    rw [rigid_shift, h]
    norm_num
  · intro xs a b t hc hlen
    exact ⟨cubicSplineEval_affine a b t xs hc hlen,
      (cubicSplineEval_affine a b t xs hc hlen).trans
        (linearInterp_affine a b t xs hc hlen).symm⟩

/-- Witness for C3 at a concrete input: the affine table over knots 1, 2, 3
with slope 2 and intercept 1, evaluated at the interior point 3/2. -/
theorem c3_witness :
    cubicSplineEval [1, 2, 3] (([1, 2, 3] : List ℚ).map fun x => 2 * x + 1) (3 / 2)
        = 2 * (3 / 2) + 1
    ∧ cubicSplineEval [1, 2, 3] (([1, 2, 3] : List ℚ).map fun x => 2 * x + 1) (3 / 2)
        = linearInterp [1, 2, 3] (([1, 2, 3] : List ℚ).map fun x => 2 * x + 1) (3 / 2) :=
  c3_trace_locator.2 [1, 2, 3] 2 1 (3 / 2)
    (by simp [List.chain'_cons]; norm_num) (by norm_num)

/-!
The shift optimizer objective.  `_profile_residual` computes
`np.nansum((model - cutout) ** 2)` where the model image comes from the
optimal-extraction collaborator `extract1d` (a routine of this package that
is outside the excerpt; the specification treats it as an external
collaborator returning a 2-D reconstructed model image, and it is an oracle
parameter here).  NaN and infinities are first-class in this computation, so
values are modeled by the type `V` below.
-/

/-- A double-precision value as relevant to the residual computation: a
finite value (exact rational), NaN, or a signed infinity. -/
inductive V where
  | fin (q : ℚ)
  | nan
  | pinf
  | ninf
deriving DecidableEq

/-- A 2-D array of possibly non-finite float values. -/
abbrev VArr := ℤ → ℤ → V

/-- IEEE subtraction on `V`. -/
def vsub : V → V → V
  | V.fin a, V.fin b => V.fin (a - b)
  | V.fin _, V.pinf => V.ninf
  | V.fin _, V.ninf => V.pinf
  | V.pinf, V.fin _ => V.pinf
  | V.ninf, V.fin _ => V.ninf
  | V.pinf, V.ninf => V.pinf
  | V.ninf, V.pinf => V.ninf
  | _, _ => V.nan

/-- IEEE squaring on `V`: squares of infinities are positive infinity. -/
def vsq : V → V
  | V.fin a => V.fin (a * a)
  | V.nan => V.nan
  | _ => V.pinf

/-- IEEE addition on `V`: opposite infinities produce NaN. -/
def vadd : V → V → V
  | V.fin a, V.fin b => V.fin (a + b)
  | V.fin _, V.pinf => V.pinf
  | V.fin _, V.ninf => V.ninf
  | V.pinf, V.fin _ => V.pinf
  | V.ninf, V.fin _ => V.ninf
  | V.pinf, V.pinf => V.pinf
  | V.ninf, V.ninf => V.ninf
  | _, _ => V.nan

/-- `np.nansum` substitutes zero for NaN entries before summing. -/
def nanToZero : V → V
  | V.nan => V.fin 0
  | v => v

/-- Model of `np.nansum` over a list of values. -/
def nansumList : List V → V
  | [] => V.fin 0
  | v :: rest => vadd (nanToZero v) (nansumList rest)

/-- The finite part of a value (0 for NaN and infinities). -/
def finPart : V → ℚ
  | V.fin q => q
  | _ => 0

/-- The squared residual image `(model - cutout) ** 2`, listed row-major
over the cutout shape. -/
def residual_entries (model cutout : VArr) (ch cw : ℕ) : List V :=
  (List.range ch).flatMap fun i =>
    (List.range cw).map fun j =>
      vsq (vsub (model (i : ℤ) (j : ℤ)) (cutout (i : ℤ) (j : ℤ)))

/-- The model image produced by the extraction collaborator inside
`_profile_residual`: for vertical dispersion the data and profiles are
transposed before the call and the model is transposed back. -/
def residual_model (extract : VArr → List Arr2 → VArr) (cutout : VArr)
    (profiles : List Arr2) (dispaxis : ℤ) : VArr :=
  if dispaxis = HORIZONTAL then extract cutout profiles
  else fun i j =>
    extract (fun a b => cutout b a) (profiles.map fun p => fun a b => p b a) j i

/-- The model image at trial parameters `(extra_shift, nod_offset)`: the
profiles are synthesized at the trial parameters (`param[1]` is always a
float during minimization, so the profile list always carries the negative
trace), then handed to the extraction collaborator. -/
def residual_model_of (extract : VArr → List Arr2 → VArr) (cutout : VArr)
    (ch cw : ℕ) (xidx yidx : Arr2) (subpix : ℚ) (psf_shift : ℤ → ℚ)
    (psf_data : Arr2) (pny pnx : ℕ) (dispaxis : ℤ) (param : ℚ × ℚ) : VArr :=
  residual_model extract cutout
    (make_cutout_profile xidx yidx subpix psf_shift psf_data pny pnx ch cw dispaxis
      param.1 (some param.2)) dispaxis

/-- Translation of `_profile_residual`: the objective minimized by the
shift optimizer, `np.nansum((model - cutout) ** 2)`. -/
def profile_residual (extract : VArr → List Arr2 → VArr) (cutout : VArr)
    (ch cw : ℕ) (xidx yidx : Arr2) (subpix : ℚ) (psf_shift : ℤ → ℚ)
    (psf_data : Arr2) (pny pnx : ℕ) (dispaxis : ℤ) (param : ℚ × ℚ) : V :=
  nansumList (residual_entries
    (residual_model_of extract cutout ch cw xidx yidx subpix psf_shift psf_data
      pny pnx dispaxis param)
    cutout ch cw)

/-- The objective as the specification words it: the sum of squared residual
entries with every non-finite entry excluded from the sum. -/
def spec_objective (model cutout : VArr) (ch cw : ℕ) : ℚ :=
  ((residual_entries model cutout ch cw).map finPart).sum

/-- `np.nansum` of a list without infinite entries is the exact sum of the
finite parts: NaN entries contribute nothing. -/
theorem nansumList_no_inf : ∀ l : List V,
    (∀ v ∈ l, v ≠ V.pinf ∧ v ≠ V.ninf) →
    nansumList l = V.fin ((l.map finPart).sum) := by
  intro l
  induction l with
  | nil => intro _; rfl
  | cons v rest ih =>
    intro hl
    have hv := hl v (List.mem_cons_self _ _)
    have hr := ih fun u hu => hl u (List.mem_cons_of_mem _ hu)
    cases v with
    | fin q => simp [nansumList, nanToZero, hr, vadd, finPart]
    | nan => simp [nansumList, nanToZero, hr, vadd, finPart]
    | pinf => exact absurd rfl hv.1
    | ninf => exact absurd rfl hv.2

/-- C8 (amended): the optimizer objective equals
`np.nansum((model - cutout) ** 2)`, which excludes NaN residual entries from
the sum; when no residual entry is infinite, the objective equals exactly
the specification objective (the sum over finite squared entries).
Infinite entries are, however, not excluded — see the counterexample. -/
theorem c8_residual_objective (extract : VArr → List Arr2 → VArr) (cutout : VArr)
    (ch cw : ℕ) (xidx yidx : Arr2) (subpix : ℚ) (psf_shift : ℤ → ℚ)
    (psf_data : Arr2) (pny pnx : ℕ) (dispaxis : ℤ) (param : ℚ × ℚ)
    (hfin : ∀ v ∈ residual_entries (residual_model_of extract cutout ch cw xidx yidx
        subpix psf_shift psf_data pny pnx dispaxis param) cutout ch cw,
      v ≠ V.pinf ∧ v ≠ V.ninf) :
    profile_residual extract cutout ch cw xidx yidx subpix psf_shift psf_data
        pny pnx dispaxis param
      = V.fin (spec_objective (residual_model_of extract cutout ch cw xidx yidx
          subpix psf_shift psf_data pny pnx dispaxis param) cutout ch cw) :=
  nansumList_no_inf _ hfin

/-- A collaborator model image that is positive infinity everywhere. -/
def extractPinf : VArr → List Arr2 → VArr := fun _ _ => fun _ _ => V.pinf

/-- An all-zero observed cutout. -/
def cutoutZero : VArr := fun _ _ => V.fin 0

/-- A collaborator model image with one NaN and one finite entry per row. -/
def extractNanRow : VArr → List Arr2 → VArr :=
  fun _ _ => fun _ j => if j = 0 then V.nan else V.fin 3

/-- C8 counterexample: with a model image containing an infinite entry the
objective is infinite — `np.nansum` does not exclude infinities — so the
claim that every non-finite entry is excluded from the sum is false on the
code at this concrete input. -/
theorem c8_counterexample :
    profile_residual extractPinf cutoutZero 1 1 xgrid ygrid 1 (fun _ => 0) onesPsf
        1 1 HORIZONTAL (0, 0)
      ≠ V.fin (spec_objective (residual_model_of extractPinf cutoutZero 1 1 xgrid ygrid 1
          (fun _ => 0) onesPsf 1 1 HORIZONTAL (0, 0)) cutoutZero 1 1) := by
  have hent : residual_entries (residual_model_of extractPinf cutoutZero 1 1 xgrid ygrid 1
      (fun _ => 0) onesPsf 1 1 HORIZONTAL (0, 0)) cutoutZero 1 1 = [V.pinf] := rfl
  have h1 : profile_residual extractPinf cutoutZero 1 1 xgrid ygrid 1 (fun _ => 0) onesPsf
      1 1 HORIZONTAL (0, 0) = V.pinf := by
    unfold profile_residual
    rw [hent]
    simp [nansumList, nanToZero, vadd]
  have h2 : spec_objective (residual_model_of extractPinf cutoutZero 1 1 xgrid ygrid 1
      (fun _ => 0) onesPsf 1 1 HORIZONTAL (0, 0)) cutoutZero 1 1 = 0 := by
    unfold spec_objective
    rw [hent]
    simp [finPart]
  rw [h1, h2]
  decide

/-- Witness for C8 at a concrete input: a 1x2 cutout whose residual entries
are one NaN and one finite value; the objective equals the specification
sum with the NaN contributing nothing. -/
theorem c8_witness :
    profile_residual extractNanRow cutoutZero 1 2 xgrid ygrid 1 (fun _ => 0) onesPsf
        1 1 HORIZONTAL (0, 0)
      = V.fin (spec_objective (residual_model_of extractNanRow cutoutZero 1 2 xgrid ygrid 1
          (fun _ => 0) onesPsf 1 1 HORIZONTAL (0, 0)) cutoutZero 1 2) :=
  c8_residual_objective extractNanRow cutoutZero 1 2 xgrid ygrid 1 (fun _ => 0) onesPsf
    1 1 HORIZONTAL (0, 0) (by decide)

/-!
Top-level orchestration `psf_profile`.  The science data model and its WCS /
dither collaborators are a record of values and oracle functions; the
reference files and the remaining collaborators (minimizer, extraction) are
a second record.  Science data is modeled 2-D (for 3-D stacks the source
takes the first integration of the cutout).  A None or NaN `middle_wl` /
`location` argument is modeled as `none`.  Log messages are abbreviated:
formatted numeric values are omitted.
-/

/-- Half-to-even rounding of `np.round` to an integer. -/
def roundHalfEven (q : ℚ) : ℤ :=
  if q - ⌊q⌋ < 1 / 2 then ⌊q⌋
  else if 1 / 2 < q - ⌊q⌋ then ⌊q⌋ + 1
  else if ⌊q⌋ % 2 = 0 then ⌊q⌋ else ⌊q⌋ + 1

/-- The science exposure: data, metadata flags, bounding box, and the WCS /
dither collaborator functions used by `nod_pair_location`.  The `backward`
transform returns `none` components where the true transform yields NaN. -/
structure InputModel where
  ny : ℕ
  nx : ℕ
  data : VArr
  exp_type : String
  resample : String
  back_sub : String
  dispaxis : ℤ
  bboxX : ℚ × ℚ
  bboxY : ℚ × ℚ
  wcsMiddleWl : ℚ
  idltov23 : ℚ → ℚ → ℚ × ℚ
  v23toworld : ℚ → ℚ → ℚ × ℚ
  backward : ℚ → ℚ → ℚ → Option ℚ × Option ℚ
  xOffset : ℚ
  yOffset : ℚ

/-- The reference data read by `open_specwcs` / `open_psf` (`specWaveTrace`
is returned by the reader but unused downstream), plus the minimizer and
extraction collaborators.  `minimize` receives the objective and the float
initial-guess vector and returns the optimal parameter vector, whose
components are floats; `nanNodProfile` is the unspecified array that
resampling at NaN coordinates produces. -/
structure Oracles where
  specTrace : List ℚ
  specWaveTrace : List ℚ
  specWavetab : List ℚ
  psfData : Arr2
  psfNy : ℕ
  psfNx : ℕ
  psfWave : ℤ → ℚ
  psfSubpix : ℚ
  psfCenterCol : ℚ
  minimize : ((ℚ × ℚ) → V) → V × V → ℚ × V
  extract : VArr → List Arr2 → VArr
  nanNodProfile : Arr2

/-- Translation of `nod_pair_location`: mirror the dither offset according
to the dispersion axis, push it through the Ideal-to-V2V3 and WCS
collaborators, and return the cross-dispersion coordinate (none models a
NaN result). -/
def nod_pair_location (m : InputModel) (middle_wl : ℚ) (dispaxis : ℤ) : Option ℚ :=
  (fun xy : Option ℚ × Option ℚ => if dispaxis = HORIZONTAL then xy.2 else xy.1)
    ((fun world : ℚ × ℚ => m.backward world.1 world.2 middle_wl)
      ((fun v23 : ℚ × ℚ => m.v23toworld v23.1 v23.2)
        (if dispaxis = HORIZONTAL then m.idltov23 m.xOffset (-m.yOffset)
         else m.idltov23 (-m.xOffset) m.yOffset)))

/-- Errors of this code path: only NotImplementedError is ever raised. -/
inductive Err where
  | notImplemented (msg : String)

/-- A full-frame profile array with its shape. -/
structure Frame where
  ny : ℕ
  nx : ℕ
  vals : Arr2

/-- The outcome of `psf_profile`: the profile frames, the cross-dispersion
aperture limits, and the log messages emitted. -/
structure PsfResult where
  profiles : List Frame
  lower : ℤ
  upper : ℤ
  log : List String

instance : Inhabited Frame := ⟨⟨0, 0, fun _ _ => 0⟩⟩

instance : Inhabited PsfResult := ⟨⟨[], 0, 0, []⟩⟩

/-- `y0 = int(np.ceil(bbox[1][0]))`. -/
def cutY0 (m : InputModel) : ℤ := ⌈m.bboxY.1⌉

/-- `y1 = int(np.ceil(bbox[1][1]))`. -/
def cutY1 (m : InputModel) : ℤ := ⌈m.bboxY.2⌉

/-- `x0 = int(np.round(bbox[0][0]))`. -/
def cutX0 (m : InputModel) : ℤ := roundHalfEven m.bboxX.1

/-- `x1 = int(np.round(bbox[0][1]))`. -/
def cutX1 (m : InputModel) : ℤ := roundHalfEven m.bboxX.2

/-- Height of the cutout `data[y0:y1, x0:x1]`, with Python slice semantics
for non-negative start indices. -/
def cutH (m : InputModel) : ℕ :=
  (min (cutY1 m) (m.ny : ℤ) - min (cutY0 m) (m.ny : ℤ)).toNat

/-- Width of the cutout `data[y0:y1, x0:x1]`, with Python slice semantics
for non-negative start indices. -/
def cutW (m : InputModel) : ℕ :=
  (min (cutX1 m) (m.nx : ℤ) - min (cutX0 m) (m.nx : ℤ)).toNat

/-- The data cutout (for 3-D stacks the source takes integration 0). -/
def cutout_data (m : InputModel) : VArr :=
  fun i j => m.data (i + min (cutY0 m) (m.ny : ℤ)) (j + min (cutX0 m) (m.nx : ℤ))

/-- `middle_wl`, defaulting to the wavelength the WCS reports at the
bounding-box center. -/
def resolved_wl (m : InputModel) (mw : Option ℚ) : ℚ := mw.getD m.wcsMiddleWl

/-- `location`, defaulting to the bounding-box center coordinate of the
cross-dispersion axis. -/
def resolved_loc (m : InputModel) (loc : Option ℚ) : ℚ :=
  loc.getD (if m.dispaxis = HORIZONTAL then (m.bboxY.1 + m.bboxY.2) / 2
            else (m.bboxX.1 + m.bboxX.2) / 2)

/-- The shifted reference trace `trace - bbox[0][0] + shift`. -/
def trace_shift_list (m : InputModel) (o : Oracles) (shift : ℚ) : List ℚ :=
  o.specTrace.map fun tr => tr - m.bboxX.1 + shift

/-- The per-PSF-column shifts: the shifted trace linearly interpolated at
the PSF wavelengths, then converted to PSF column coordinates by
`center_col - psf_shift * subpix`. -/
def psf_shift_fn (m : InputModel) (o : Oracles) (shift : ℚ) : ℤ → ℚ :=
  fun j => o.psfCenterCol
    - linearInterp o.specWavetab (trace_shift_list m o shift) (o.psfWave j) * o.psfSubpix

/-- The nod-offset decision of `psf_profile` (lines 365-381) together with
the log messages it emits: None unless nod-pair modeling is requested and
background subtraction is COMPLETE and the mirrored location is not NaN. -/
def nod_decision (m : InputModel) (mw loc : Option ℚ) (mnp : Bool) :
    Option ℚ × List String :=
  if mnp then
    if m.back_sub = "COMPLETE" then
      match nod_pair_location m (resolved_wl m mw) m.dispaxis with
      | none => (none, ["WARNING: Nod center could not be estimated from the WCS.",
                        "WARNING: The negative nod will not be modeled."])
      | some nod_center => (some (resolved_loc m loc - nod_center), [])
    else (none,
      ["INFO: Input data was not nod-subtracted. A negative trace will not be modeled."])
  else (none, [])

/-- The optimizer initial guess `[0.0, nod_offset]` as cast to a float
vector by the minimizer: the numpy float conversion maps Python None to
NaN, not to 0. -/
def optimizer_x0 (nod : Option ℚ) : V × V :=
  (V.fin 0, match nod with | none => V.nan | some q => V.fin q)

/-- The objective closure handed to the minimizer. -/
def residual_fn (m : InputModel) (o : Oracles) (shift : ℚ) : (ℚ × ℚ) → V :=
  fun param => profile_residual o.extract (cutout_data m) (cutH m) (cutW m)
    xgrid ygrid o.psfSubpix (psf_shift_fn m o shift) o.psfData o.psfNy o.psfNx
    m.dispaxis param

/-- Shift optimization (lines 389-397): when enabled, `extra_shift` and
`nod_offset` are both rebound to the minimizer result, so the nod offset
becomes a float — possibly NaN, but never None again; when disabled,
`extra_shift = 0` and the decision value is kept. -/
def opt_triple (m : InputModel) (o : Oracles) (mw loc : Option ℚ)
    (opt mnp : Bool) : ℚ × Option V × List String :=
  if opt then
    ((o.minimize (residual_fn m o (rigid_shift o.specWavetab o.specTrace
          (resolved_wl m mw) (resolved_loc m loc)))
        (optimizer_x0 (nod_decision m mw loc mnp).1)).1,
     some (o.minimize (residual_fn m o (rigid_shift o.specWavetab o.specTrace
          (resolved_wl m mw) (resolved_loc m loc)))
        (optimizer_x0 (nod_decision m mw loc mnp).1)).2,
     ["INFO: Optimizing trace locations"])
  else (0, (nod_decision m mw loc mnp).1.map V.fin, [])

/-- The final synthesis call with a float-or-None nod offset: a finite float
delegates to `make_cutout_profile`; a non-finite offset drives every
resampling coordinate to NaN, so the raw nod profile is the unspecified
collaborator array `nanProf`, which the real code path then normalizes and
negates.  The list has two entries whenever the offset is not None. -/
def make_cutout_profile_v (xidx yidx : Arr2) (subpix : ℚ) (psf_shift : ℤ → ℚ)
    (psf_data : Arr2) (pny pnx ch cw : ℕ) (dispaxis : ℤ) (es : ℚ)
    (nod : Option V) (nanProf : Arr2) : List Arr2 :=
  match nod with
  | none => make_cutout_profile xidx yidx subpix psf_shift psf_data pny pnx
      ch cw dispaxis es none
  | some (V.fin q) => make_cutout_profile xidx yidx subpix psf_shift psf_data pny pnx
      ch cw dispaxis es (some q)
  | some _ =>
      [(make_cutout_profile xidx yidx subpix psf_shift psf_data pny pnx
          ch cw dispaxis es none).headI,
       fun i j => -(normalize_profile nanProf ch cw dispaxis i j)]

/-- The cutout-shaped profiles of the final synthesis call. -/
def synth_profiles (m : InputModel) (o : Oracles) (mw loc : Option ℚ)
    (opt mnp : Bool) : List Arr2 :=
  make_cutout_profile_v xgrid ygrid o.psfSubpix
    (psf_shift_fn m o (rigid_shift o.specWavetab o.specTrace
      (resolved_wl m mw) (resolved_loc m loc)))
    o.psfData o.psfNy o.psfNx (cutH m) (cutW m) m.dispaxis
    (opt_triple m o mw loc opt mnp).1 (opt_triple m o mw loc opt mnp).2.1
    o.nanNodProfile

/-- Embed a cutout-shaped profile into a zero-filled full frame at offset
`(y0, x0)`, keeping only pixels that pass the validity mask of
`psf_profile` (`output_y` in `[0, y1)`, `output_x` in `[0, x1)`). -/
def embedCutout (sp : Arr2) (y0 x0 : ℤ) (ch cw : ℕ) (y1 x1 : ℤ) : Arr2 :=
  fun r c =>
    if 0 ≤ r - y0 ∧ r - y0 < (ch : ℤ) ∧ 0 ≤ c - x0 ∧ c - x0 < (cw : ℤ)
        ∧ 0 ≤ r ∧ r < y1 ∧ 0 ≤ c ∧ c < x1
    then sp (r - y0) (c - x0) else 0

/-- The successful outcome of `psf_profile`: full-frame profiles embedded at
`(y0, x0)`, limits `(y0, y1)` for horizontal dispersion and `(x0, x1)`
otherwise, and the log stream. -/
def psf_profile_ok (m : InputModel) (o : Oracles) (mw loc : Option ℚ)
    (opt mnp : Bool) : PsfResult :=
  PsfResult.mk
    ((synth_profiles m o mw loc opt mnp).map fun sp =>
      Frame.mk m.ny m.nx
        (embedCutout sp (cutY0 m) (cutX0 m) (cutH m) (cutW m) (cutY1 m) (cutX1 m)))
    (if m.dispaxis = HORIZONTAL then cutY0 m else cutX0 m)
    (if m.dispaxis = HORIZONTAL then cutY1 m else cutX1 m)
    ((nod_decision m mw loc mnp).2 ++ (opt_triple m o mw loc opt mnp).2.2
      ++ ["INFO: Centering profile on spectrum"]
      ++ (if (opt_triple m o mw loc opt mnp).2.1.isSome then
            ["INFO: Also modeling a negative trace"] else []))

/-- Translation of `psf_profile`.  The exposure-type check (line 296) and
the resampled-data check (lines 333-336) are the only raises on this path;
they are evaluated here before the pure computation, in their source order,
which preserves the outcome because everything in between is pure. -/
def psf_profile (m : InputModel) (o : Oracles) (mw loc : Option ℚ)
    (opt mnp : Bool) : Except Err PsfResult :=
  if m.exp_type = "MIR_LRS-FIXEDSLIT" then
    if m.resample = "COMPLETE" then
      Except.error (Err.notImplemented
        "Optimal extraction not implemented for resampled data.")
    else Except.ok (psf_profile_ok m o mw loc opt mnp)
  else Except.error (Err.notImplemented
    "PSF extraction is not supported for this EXP_TYPE")

/-- Project the successful result out of a `psf_profile` outcome. -/
def getOk (e : Except Err PsfResult) : PsfResult :=
  match e with
  | Except.ok r => r
  | Except.error _ => default

/-- A small concrete science exposure for witnesses: a 4x4 frame of ones,
horizontal dispersion, bounding box [0,4]x[0,4], supported exposure type,
not resampled, not background-subtracted. -/
def mC : InputModel :=
  InputModel.mk 4 4 (fun _ _ => V.fin 1) "MIR_LRS-FIXEDSLIT" "None" "None"
    HORIZONTAL (0, 4) (0, 4) 2 (fun a b => (a, b)) (fun a b => (a, b))
    (fun _ _ _ => (some 2, some 2)) 1 1

/-- Concrete reference data and collaborators for witnesses. -/
def oC : Oracles :=
  Oracles.mk [10, 20, 30] [5, 6, 7] [1, 2, 3] (fun _ _ => 1) 8 8 (fun _ => 2) 1 4
    (fun _ _ => (0, V.nan)) (fun _ _ => fun _ _ => V.fin 0) (fun _ _ => 0)

/-- Shift optimization disabled: the optimizer collaborator is not consulted
and the decision nod offset is kept (as a float, None staying None). -/
theorem opt_triple_false (m : InputModel) (o : Oracles) (mw loc : Option ℚ)
    (mnp : Bool) :
    opt_triple m o mw loc false mnp
      = (0, (nod_decision m mw loc mnp).1.map V.fin, []) := by
  simp [opt_triple]

/-- Shift optimization enabled: both parameters are rebound from the
minimizer result; the nod offset slot is a float, hence never None. -/
theorem opt_triple_true (m : InputModel) (o : Oracles) (mw loc : Option ℚ)
    (mnp : Bool) :
    opt_triple m o mw loc true mnp
      = ((o.minimize (residual_fn m o (rigid_shift o.specWavetab o.specTrace
            (resolved_wl m mw) (resolved_loc m loc)))
          (optimizer_x0 (nod_decision m mw loc mnp).1)).1,
         some (o.minimize (residual_fn m o (rigid_shift o.specWavetab o.specTrace
            (resolved_wl m mw) (resolved_loc m loc)))
          (optimizer_x0 (nod_decision m mw loc mnp).1)).2,
         ["INFO: Optimizing trace locations"]) := by
  simp [opt_triple]

/-- The final synthesis call returns two profiles for every float (non-None)
nod offset, whether finite or NaN. -/
theorem make_cutout_profile_v_some_length (xidx yidx : Arr2) (subpix : ℚ)
    (psf_shift : ℤ → ℚ) (psf_data : Arr2) (pny pnx ch cw : ℕ) (dispaxis : ℤ)
    (es : ℚ) (v : V) (nanProf : Arr2) :
    (make_cutout_profile_v xidx yidx subpix psf_shift psf_data pny pnx ch cw
      dispaxis es (some v) nanProf).length = 2 := by
  cases v <;> simp [make_cutout_profile_v, make_cutout_profile]

/-- When the nod offset is None or a finite float, the final synthesis call
does not consult the NaN-resample collaborator array. -/
theorem make_cutout_profile_v_map_fin (xidx yidx : Arr2) (subpix : ℚ)
    (psf_shift : ℤ → ℚ) (psf_data : Arr2) (pny pnx ch cw : ℕ) (dispaxis : ℤ)
    (es : ℚ) (nod : Option ℚ) (np1 np2 : Arr2) :
    make_cutout_profile_v xidx yidx subpix psf_shift psf_data pny pnx ch cw
        dispaxis es (nod.map V.fin) np1
      = make_cutout_profile_v xidx yidx subpix psf_shift psf_data pny pnx ch cw
        dispaxis es (nod.map V.fin) np2 := by
  cases nod <;> rfl

/-- With optimization enabled the profile list always has two entries. -/
theorem synth_profiles_opt_length (m : InputModel) (o : Oracles)
    (mw loc : Option ℚ) (mnp : Bool) :
    (synth_profiles m o mw loc true mnp).length = 2 := by
  simp only [synth_profiles, opt_triple_true]
  exact make_cutout_profile_v_some_length _ _ _ _ _ _ _ _ _ _ _ _ _

/-- The embedded full-frame profile vanishes outside the cutout region. -/
theorem embedCutout_outside (sp : Arr2) (y0 x0 : ℤ) (ch cw : ℕ) (y1 x1 rr cc : ℤ)
    (h : rr < y0 ∨ y0 + (ch : ℤ) ≤ rr ∨ cc < x0 ∨ x0 + (cw : ℤ) ≤ cc) :
    embedCutout sp y0 x0 ch cw y1 x1 rr cc = 0 := by
  unfold embedCutout
  rw [if_neg]
  rintro ⟨h1, h2, h3, h4, _⟩
  omega

/-- The embedded full-frame profile vanishes at rows outside `[y0, y1)`. -/
theorem embedCutout_outside_rows (sp : Arr2) (y0 x0 : ℤ) (ch cw : ℕ)
    (y1 x1 rr cc : ℤ) (h : rr < y0 ∨ y1 ≤ rr) :
    embedCutout sp y0 x0 ch cw y1 x1 rr cc = 0 := by
  unfold embedCutout
  rw [if_neg]
  rintro ⟨h1, _, _, _, _, h6, _⟩
  omega

/-- The embedded full-frame profile vanishes at columns outside `[x0, x1)`. -/
theorem embedCutout_outside_cols (sp : Arr2) (y0 x0 : ℤ) (ch cw : ℕ)
    (y1 x1 rr cc : ℤ) (h : cc < x0 ∨ x1 ≤ cc) :
    embedCutout sp y0 x0 ch cw y1 x1 rr cc = 0 := by
  unfold embedCutout
  rw [if_neg]
  rintro ⟨_, _, h3, _, _, _, _, h8⟩
  omega

/-- A successful `psf_profile` outcome is the pure body. -/
theorem psf_profile_ok_of_eq (m : InputModel) (o : Oracles) (mw loc : Option ℚ)
    (opt mnp : Bool) (r : PsfResult)
    (h : psf_profile m o mw loc opt mnp = Except.ok r) :
    r = psf_profile_ok m o mw loc opt mnp := by
  unfold psf_profile at h
  by_cases h1 : m.exp_type = "MIR_LRS-FIXEDSLIT"
  · rw [if_pos h1] at h
    by_cases h2 : m.resample = "COMPLETE"
    · rw [if_pos h2] at h
      exact absurd h (by simp)
    · rw [if_neg h2] at h
      injection h with h
      exact h.symm
  · rw [if_neg h1] at h
    exact absurd h (by simp)

/-- C6: `psf_profile` fails with a NotImplementedError-class error, and the
error is the whole outcome (no profile is produced), exactly when the
exposure type is not MIR_LRS-FIXEDSLIT or the input has been resampled;
for every other input these checks raise nothing and the call succeeds. -/
theorem c6_not_implemented (m : InputModel) (o : Oracles) (mw loc : Option ℚ)
    (opt mnp : Bool) :
    (∃ msg, psf_profile m o mw loc opt mnp = Except.error (Err.notImplemented msg))
      ↔ (m.exp_type ≠ "MIR_LRS-FIXEDSLIT" ∨ m.resample = "COMPLETE") := by
  by_cases h1 : m.exp_type = "MIR_LRS-FIXEDSLIT" <;>
    by_cases h2 : m.resample = "COMPLETE" <;>
      simp [psf_profile, h1, h2]

/-- C4: every profile frame returned by `psf_profile` has the shape of the
full observation frame, is the embedding of a cutout-shaped synthesized
profile into a zero-filled frame at offset `(y0, x0)`, and is exactly 0 at
every pixel outside the embedded cutout region. -/
theorem c4_full_frame (m : InputModel) (o : Oracles) (mw loc : Option ℚ)
    (opt mnp : Bool) (r : PsfResult)
    (h : psf_profile m o mw loc opt mnp = Except.ok r) :
    r.profiles = (synth_profiles m o mw loc opt mnp).map (fun sp =>
      Frame.mk m.ny m.nx (embedCutout sp (cutY0 m) (cutX0 m) (cutH m) (cutW m)
        (cutY1 m) (cutX1 m)))
    ∧ ∀ p ∈ r.profiles, p.ny = m.ny ∧ p.nx = m.nx
        ∧ ∀ rr cc : ℤ,
          (rr < cutY0 m ∨ cutY0 m + (cutH m : ℤ) ≤ rr
            ∨ cc < cutX0 m ∨ cutX0 m + (cutW m : ℤ) ≤ cc) →
          p.vals rr cc = 0 := by
  have hr := psf_profile_ok_of_eq m o mw loc opt mnp r h
  subst hr
  constructor
  · rfl
  · intro p hp
    simp only [psf_profile_ok, List.mem_map] at hp
    obtain ⟨sp, _, hsp⟩ := hp
    refine ⟨by rw [← hsp], by rw [← hsp], ?_⟩
    intro rr cc hout
    rw [← hsp]
    exact embedCutout_outside sp _ _ _ _ _ _ rr cc hout

/-- Witness for C4 at the concrete input: the returned profile list is the
embedding of the synthesized cutout profiles at the cutout offset. -/
theorem c4_witness :
    (getOk (psf_profile mC oC none none false false)).profiles
      = (synth_profiles mC oC none none false false).map (fun sp =>
        Frame.mk mC.ny mC.nx (embedCutout sp (cutY0 mC) (cutX0 mC) (cutH mC)
          (cutW mC) (cutY1 mC) (cutX1 mC))) :=
  (c4_full_frame mC oC none none false false
    (getOk (psf_profile mC oC none none false false)) rfl).1

/-- C10: the returned limits are the ceilings of the bounding-box y-edges
for horizontal dispersion and the half-to-even roundings of the x-edges
otherwise — the very values that delimit the cutout — and every returned
profile vanishes at cross-dispersion indices outside `[lower, upper)`. -/
theorem c10_limits (m : InputModel) (o : Oracles) (mw loc : Option ℚ)
    (opt mnp : Bool) (r : PsfResult)
    (h : psf_profile m o mw loc opt mnp = Except.ok r) :
    (m.dispaxis = HORIZONTAL →
      (r.lower = ⌈m.bboxY.1⌉ ∧ r.upper = ⌈m.bboxY.2⌉)
      ∧ ∀ p ∈ r.profiles, ∀ rr cc : ℤ, (rr < r.lower ∨ r.upper ≤ rr) →
          p.vals rr cc = 0)
    ∧ (m.dispaxis ≠ HORIZONTAL →
      (r.lower = roundHalfEven m.bboxX.1 ∧ r.upper = roundHalfEven m.bboxX.2)
      ∧ ∀ p ∈ r.profiles, ∀ rr cc : ℤ, (cc < r.lower ∨ r.upper ≤ cc) →
          p.vals rr cc = 0) := by
  have hr := psf_profile_ok_of_eq m o mw loc opt mnp r h
  subst hr
  constructor
  · intro hd
    constructor
    · constructor <;> simp [psf_profile_ok, hd, cutY0, cutY1]
    · intro p hp rr cc hout
      simp only [psf_profile_ok, List.mem_map] at hp
      obtain ⟨sp, _, hsp⟩ := hp
      simp only [psf_profile_ok, hd, if_pos rfl, if_true, eq_self_iff_true] at hout
      rw [← hsp]
      exact embedCutout_outside_rows sp _ _ _ _ _ _ rr cc hout
  · intro hd
    constructor
    · constructor <;> simp [psf_profile_ok, hd, cutX0, cutX1]
    · intro p hp rr cc hout
      simp only [psf_profile_ok, List.mem_map] at hp
      obtain ⟨sp, _, hsp⟩ := hp
      simp only [psf_profile_ok, hd, if_neg hd, if_false] at hout
      rw [← hsp]
      exact embedCutout_outside_cols sp _ _ _ _ _ _ rr cc hout

/-- Witness for C10 at the concrete input: the horizontal-dispersion limits
are the ceilings of the bounding-box y-edges. -/
theorem c10_witness :
    (getOk (psf_profile mC oC none none false false)).lower = ⌈mC.bboxY.1⌉
    ∧ (getOk (psf_profile mC oC none none false false)).upper = ⌈mC.bboxY.2⌉ :=
  ((c10_limits mC oC none none false false
    (getOk (psf_profile mC oC none none false false)) rfl).1 rfl).1

/-- C5 (code defect): with the default shift optimization enabled,
`model_nod_pair = True` and background subtraction not COMPLETE, the call
logs that no negative trace will be modeled and sets the nod offset to
None — but the optimization step rebinds the nod offset to a float
component of the minimizer result (NaN via numpy casting of None), which is
never None again, so the final synthesis call returns TWO profiles.  The
claim (and the log message, and the docstring) say exactly one profile; no
error is raised either way. -/
theorem c5_nod_disabled_two_profiles (m : InputModel) (o : Oracles)
    (mw loc : Option ℚ)
    (hexp : m.exp_type = "MIR_LRS-FIXEDSLIT")
    (hres : m.resample ≠ "COMPLETE")
    (hbs : m.back_sub ≠ "COMPLETE") :
    psf_profile m o mw loc true true
        = Except.ok (psf_profile_ok m o mw loc true true)
    ∧ (psf_profile_ok m o mw loc true true).profiles.length = 2
    ∧ "INFO: Input data was not nod-subtracted. A negative trace will not be modeled."
        ∈ (psf_profile_ok m o mw loc true true).log := by
  refine ⟨?_, ?_, ?_⟩
  · simp [psf_profile, hexp, hres]
  · simp only [psf_profile_ok, List.length_map]
    exact synth_profiles_opt_length m o mw loc true
  · have hnd : (nod_decision m mw loc true).2
        = ["INFO: Input data was not nod-subtracted. A negative trace will not be modeled."] := by
      simp [nod_decision, hbs]
    simp [psf_profile_ok, hnd]

/-- Witness for C5 at the concrete input (not nod-subtracted, optimization
on): the call succeeds with two profiles and the informational message. -/
theorem c5_witness :
    psf_profile mC oC none none true true
        = Except.ok (psf_profile_ok mC oC none none true true)
    ∧ (psf_profile_ok mC oC none none true true).profiles.length = 2
    ∧ "INFO: Input data was not nod-subtracted. A negative trace will not be modeled."
        ∈ (psf_profile_ok mC oC none none true true).log :=
  c5_nod_disabled_two_profiles mC oC none none rfl (by decide) (by decide)

/-- C7 counterexample: the claim that a None nod offset is treated as 0 for
the two-parameter minimization is false — the float cast of the initial
guess `[0.0, None]` turns None into NaN, not into 0. -/
theorem c7_counterexample :
    (optimizer_x0 none).2 = V.nan ∧ (optimizer_x0 none).2 ≠ V.fin 0 := by
  exact ⟨rfl, by decide⟩

/-- C7 (amended): with nod modeling disabled the optimizer initial-guess
slot holds NaN (the numpy float cast of None), not 0; the two-parameter
minimization nevertheless proceeds and `psf_profile` completes, yielding
the optimizer extra-shift estimate rather than failing. -/
theorem c7_optimizer_none (m : InputModel) (o : Oracles) (mw loc : Option ℚ)
    (mnp : Bool)
    (hexp : m.exp_type = "MIR_LRS-FIXEDSLIT")
    (hres : m.resample ≠ "COMPLETE") :
    (optimizer_x0 none).2 = V.nan
    ∧ psf_profile m o mw loc true mnp
        = Except.ok (psf_profile_ok m o mw loc true mnp) :=
  ⟨rfl, by simp [psf_profile, hexp, hres]⟩

/-- Witness for C7 at the concrete input. -/
theorem c7_witness :
    (optimizer_x0 none).2 = V.nan
    ∧ psf_profile mC oC none none true false
        = Except.ok (psf_profile_ok mC oC none none true false) :=
  c7_optimizer_none mC oC none none false rfl (by decide)

/-- C9: with `optimize_shifts = False` the outcome is a pure function of
the science input and the reference data alone — two calls with identical
inputs return identical profile arrays, limits and log, whatever the state
of the minimizer, extraction and NaN-resample collaborators.  (Purity and
fresh allocation are structural in this embedding; the theorem states the
collaborator-independence that makes repeated calls bit-identical.) -/
theorem c9_deterministic (m : InputModel) (mw loc : Option ℚ) (mnp : Bool)
    (t wt w : List ℚ) (pd : Arr2) (pny pnx : ℕ) (pw : ℤ → ℚ) (sp cc : ℚ)
    (min1 min2 : ((ℚ × ℚ) → V) → V × V → ℚ × V)
    (ex1 ex2 : VArr → List Arr2 → VArr) (nn1 nn2 : Arr2) :
    psf_profile m (Oracles.mk t wt w pd pny pnx pw sp cc min1 ex1 nn1) mw loc false mnp
      = psf_profile m (Oracles.mk t wt w pd pny pnx pw sp cc min2 ex2 nn2) mw loc false mnp := by
  unfold psf_profile
  by_cases h1 : m.exp_type = "MIR_LRS-FIXEDSLIT"
  · simp only [if_pos h1]
    by_cases h2 : m.resample = "COMPLETE"
    · simp only [if_pos h2]
    · simp only [if_neg h2]
      have hsynth : synth_profiles m (Oracles.mk t wt w pd pny pnx pw sp cc min1 ex1 nn1)
            mw loc false mnp
          = synth_profiles m (Oracles.mk t wt w pd pny pnx pw sp cc min2 ex2 nn2)
            mw loc false mnp := by
        simp only [synth_profiles, opt_triple_false]
        exact make_cutout_profile_v_map_fin _ _ _ _ _ _ _ _ _ _ _ _ nn1 nn2
      unfold psf_profile_ok
      simp only [opt_triple_false]
      rw [hsynth]
  · simp only [if_neg h1]
